import Mathlib

/-!
# Verification of the call-graph generator (`codeanalyzer.py`)

Shallow embedding of the core of `src/codeanalyzer.py`: the AST visitor
`CallGraphAnalyzer` (`visit_FunctionDef`, `visit_Call`, `_get_call_name`),
per-file analysis `analyze_file`, and the assembly step of
`generate_call_graph` (registry merge by `dict.update` and flattening of
per-function call lists into relationship entries).

Python dictionaries are modelled as insertion-ordered association lists:
assigning to an existing key replaces the value in place (keeping the key's
iteration position), assigning to a fresh key appends at the end — this is
exactly CPython dict semantics, on which the source relies.

The possibility of a `KeyError` in `visit_Call`'s
`self.functions[self.current_function]['calls'].append(...)` is modelled by
making the visitor return `Option`: `none` means an uncaught Python
exception; `analyze_file` catches every exception and returns the empty
mapping, as the source's `except Exception` block does.
-/

namespace CallGraph

/-- `os.path.basename` for POSIX paths: the component after the last `/`
(the whole string when it has no `/`). -/
def basename (p : String) : String :=
  ⟨((p.data.reverse.takeWhile (fun c => c ≠ '/')).reverse)⟩

/-- The per-function record built by `visit_FunctionDef`
(`{'name': …, 'file': …, 'line': …, 'calls': […]}`). -/
structure FunctionRecord where
  name : String
  file : String
  line : Nat
  calls : List String
deriving Repr, DecidableEq

/-- A Python dict from function name to record, as an insertion-ordered
association list. -/
abbrev Registry := List (String × FunctionRecord)

/-- Whether `k` is a key of the dict (`k in d`). -/
def dictMem (d : Registry) (k : String) : Bool :=
  d.any (fun p => p.1 = k)

/-- Python dict assignment `d[k] = v`: replace in place if the key exists
(keeping its iteration position), otherwise append at the end. -/
def dictInsert (d : Registry) (k : String) (v : FunctionRecord) : Registry :=
  if dictMem d k then
    d.map (fun p => if p.1 = k then (p.1, v) else p)
  else
    d ++ [(k, v)]

/-- Python dict lookup `d[k]` as an `Option` (first — and, for genuine
dicts, only — binding of `k`). -/
def dictGet? : Registry → String → Option FunctionRecord
  | [], _ => none
  | p :: d, k => if p.1 = k then some p.2 else dictGet? d k

/-- `d1.update(d2)`: assign every binding of `d2`, in order, into `d1`. -/
def dictUpdate (d1 d2 : Registry) : Registry :=
  d2.foldl (fun acc p => dictInsert acc p.1 p.2) d1

/-- `self.functions[k]['calls'].append(c)`: `none` models the `KeyError`
raised when `k` is not a key. -/
def appendCall (d : Registry) (k c : String) : Option Registry :=
  if dictMem d k then
    some (d.map (fun p =>
      if p.1 = k then (p.1, { p.2 with calls := p.2.calls ++ [c] }) else p))
  else
    none

/-- The shape of a call expression's `func` sub-expression, as far as
`_get_call_name` inspects it: `ast.Name` (bare identifier), `ast.Attribute`
(member access, only the trailing attribute name is kept), or any other
expression shape. -/
inductive CallTarget where
  | name (id : String)
  | attribute (attr : String)
  | other
deriving Repr, DecidableEq

/-- A Python AST node, specialised to the node kinds the visitor
distinguishes. `children` is the node's child-node list in the order
`ast.NodeVisitor.generic_visit` traverses it (for a `FunctionDef`:
arguments — including default-value expressions —, body statements, then
decorator expressions). `defn` is `ast.FunctionDef` (a plain `def`);
`asyncDefn` is `ast.AsyncFunctionDef` (an `async def`), for which the
visitor defines no handler, so it is traversed by `generic_visit` like any
other node. A `call` node's children include its `func` sub-expression and
its arguments. Every remaining node kind (module statements, class
definitions, expressions, …) is `other`. -/
inductive Node where
  | defn (name : String) (lineno : Nat) (children : List Node)
  | asyncDefn (name : String) (lineno : Nat) (children : List Node)
  | call (target : CallTarget) (children : List Node)
  | other (children : List Node)

/-- `CallGraphAnalyzer._get_call_name`. -/
def getCallName : CallTarget → Option String
  | .name id => some id
  | .attribute attr => some attr
  | .other => none

/-- The analyzer's mutable state: `self.functions` and
`self.current_function`. -/
structure AnalyzerState where
  functions : Registry
  current_function : Option String
deriving Repr, DecidableEq

/-- Python truthiness of `self.current_function` (`None` and `""` are
falsy), as tested by `if self.current_function:`. -/
def isActive : Option String → Bool
  | none => false
  | some f => !(f = "")

mutual

/-- `CallGraphAnalyzer.visit` on one node: dispatch to `visit_FunctionDef`
for a `FunctionDef`, to `visit_Call` for a `Call`, and to `generic_visit`
otherwise. `none` models an uncaught exception. -/
def visit (fp : String) (s : AnalyzerState) : Node → Option AnalyzerState
  | .defn name lineno children => do
    let s1 : AnalyzerState :=
      { functions := dictInsert s.functions name
          { name := name, file := basename fp, line := lineno, calls := [] }
        current_function := some name }
    let s2 ← visitList fp s1 children
    pure { s2 with current_function := none }
  | .asyncDefn _ _ children => visitList fp s children
  | .call target children => do
    let s1 ←
      if isActive s.current_function then
        match s.current_function, getCallName (target) with
        | some f, some c => do
          let fs ← appendCall s.functions f c
          pure { s with functions := fs }
        | _, _ => pure s
      else
        pure s
    visitList fp s1 children
  | .other children => visitList fp s children

/-- `generic_visit`: visit the children in order, threading the state. -/
def visitList (fp : String) (s : AnalyzerState) : List Node → Option AnalyzerState
  | [] => pure s
  | n :: ns => do
    let s1 ← visit fp s n
    visitList fp s1 ns

end

/-- A source file as the extractor sees it: its path and the outcome of
`ast.parse` on its contents (`none` = parse failure; a parsed module is its
list of top-level statements, which `generic_visit` traverses). -/
structure PyFile where
  path : String
  tree? : Option (List Node)

/-- The analyzer's initial state (`__init__`). -/
def initState : AnalyzerState := { functions := [], current_function := none }

/-- `analyze_file`: parse, visit, return `self.functions`; on any exception
(parse failure or visitor error) return the empty mapping. -/
def analyze_file (f : PyFile) : Registry :=
  match f.tree? with
  | none => []
  | some tree =>
    match visitList f.path initState tree with
    | none => []
    | some s => s.functions

/-- One entry of `call_relationships`. -/
structure CallRelationship where
  caller : String
  callee : String
  caller_file : String
deriving Repr, DecidableEq

/-- The report assembled by `generate_call_graph`. -/
structure CallGraphReport where
  repository : String
  total_functions : Nat
  functions : Registry
  call_relationships : List CallRelationship
deriving Repr, DecidableEq

/-- The relationship-building loop: for each registry entry in iteration
order, one relationship per element of its `calls` list, in order. -/
def buildRelationships : Registry → List CallRelationship
  | [] => []
  | p :: rest =>
    p.2.calls.map (fun c => { caller := p.1, callee := c, caller_file := p.2.file })
      ++ buildRelationships rest

/-- The pure core of `generate_call_graph`: fold `analyze_file` results into
`all_functions` by `dict.update` in file order, then assemble the report.
(Cloning and file discovery are the external locator; `files` is the
ordered sequence it produces.) -/
def generate_call_graph (repo_url : String) (files : List PyFile) : CallGraphReport :=
  let all_functions := files.foldl (fun acc f => dictUpdate acc (analyze_file f)) []
  { repository := repo_url
    total_functions := all_functions.length
    functions := all_functions
    call_relationships := buildRelationships all_functions }

/-- The key sequence of a registry, in iteration order. -/
def keys (d : Registry) : List String := d.map Prod.fst

mutual

/-- Whether a plain (`def`, i.e. `ast.FunctionDef`) function definition
named `nm` occurs anywhere in this node's subtree (the node itself
included). -/
def containsDefn (nm : String) : Node → Bool
  | .defn n _ ch => decide (n = nm) || containsDefnList nm ch
  | .asyncDefn _ _ ch => containsDefnList nm ch
  | .call _ ch => containsDefnList nm ch
  | .other ch => containsDefnList nm ch

/-- `containsDefn` over a list of nodes. -/
def containsDefnList (nm : String) : List Node → Bool
  | [] => false
  | n :: ns => containsDefn nm n || containsDefnList nm ns

end

/-- The safety invariant of the analyzer state: whenever a function is
marked current, its record is already registered. -/
def Inv (s : AnalyzerState) : Prop :=
  ∀ f, s.current_function = some f → dictMem s.functions f = true

/-- `Inv` on a visitor outcome: an uncaught exception (`none`, in particular
the `KeyError` of a dictionary miss in `visit_Call`) is ruled out, and the
resulting state satisfies `Inv`. -/
def InvO : Option AnalyzerState → Prop
  | none => False
  | some s => Inv s

section DictLemmas

theorem dictMem_iff_mem_keys (d : Registry) (k : String) :
    dictMem d k = true ↔ k ∈ keys d := by
  simp [dictMem, keys, List.any_eq_true]

theorem keys_dictInsert (d : Registry) (k : String) (v : FunctionRecord) :
    keys (dictInsert d k v) = if dictMem d k then keys d else keys d ++ [k] := by
  unfold dictInsert
  by_cases h : dictMem d k
  · simp only [h, if_true, keys, List.map_map]
    refine List.map_congr_left ?_
    intro p _
    by_cases hp : p.1 = k <;> simp [hp]
  · simp [h, keys]

theorem dictMem_dictInsert_self (d : Registry) (k : String) (v : FunctionRecord) :
    dictMem (dictInsert d k v) k = true := by
  rw [dictMem_iff_mem_keys, keys_dictInsert]
  by_cases h : dictMem d k
  · simp only [h, if_true]
    exact (dictMem_iff_mem_keys d k).mp h
  · simp [h]

theorem dictMem_dictInsert_mono (d : Registry) (k : String) (v : FunctionRecord)
    (k' : String) (h : dictMem d k' = true) :
    dictMem (dictInsert d k v) k' = true := by
  rw [dictMem_iff_mem_keys, keys_dictInsert]
  rw [dictMem_iff_mem_keys] at h
  by_cases hk : dictMem d k <;> simp [hk, h]

theorem appendCall_eq_some (d : Registry) (k c : String) (h : dictMem d k = true) :
    appendCall d k c = some (d.map (fun p =>
      if p.1 = k then (p.1, { p.2 with calls := p.2.calls ++ [c] }) else p)) := by
  simp [appendCall, h]

theorem keys_appendCall (d : Registry) (k c : String) (d' : Registry)
    (h : appendCall d k c = some d') : keys d' = keys d := by
  unfold appendCall at h
  by_cases hm : dictMem d k
  · simp only [hm, if_true, Option.some.injEq] at h
    subst h
    simp only [keys, List.map_map]
    refine List.map_congr_left ?_
    intro p _
    by_cases hp : p.1 = k <;> simp [hp]
  · simp [hm] at h

theorem dictGet?_dictInsert_self (d : Registry) (k : String) (v : FunctionRecord) :
    dictGet? (dictInsert d k v) k = some v := by
  unfold dictInsert
  by_cases h : dictMem d k
  · simp only [h, if_true]
    induction d with
    | nil => simp [dictMem] at h
    | cons p d ih =>
      by_cases hp : p.1 = k
      · simp [dictGet?, hp]
      · simp only [List.map_cons, if_neg hp, dictGet?, hp, if_false]
        exact ih (by simpa [dictMem, hp] using h)
  · simp only [h, Bool.false_eq_true, if_false]
    induction d with
    | nil => simp [dictGet?]
    | cons p d ih =>
      have hp : ¬ (p.1 = k) := by
        intro hk
        simp [dictMem, hk] at h
      simp only [List.cons_append, dictGet?, hp, if_false]
      exact ih (by simpa [dictMem, hp] using h)

theorem dictGet?_dictInsert_ne (d : Registry) (k : String) (v : FunctionRecord)
    (k' : String) (hne : k' ≠ k) :
    dictGet? (dictInsert d k v) k' = dictGet? d k' := by
  have hmap : ∀ e : Registry,
      dictGet? (e.map (fun p => if p.1 = k then (p.1, v) else p)) k' = dictGet? e k' := by
    intro e
    induction e with
    | nil => rfl
    | cons p e ih =>
      by_cases hp : p.1 = k
      · have hp' : ¬ (p.1 = k') := by rw [hp]; exact fun hc => hne hc.symm
        simp only [List.map_cons, if_pos hp, dictGet?, if_neg hp', ih]
      · by_cases hp' : p.1 = k'
        · simp only [List.map_cons, if_neg hp, dictGet?, if_pos hp', ih]
        · simp only [List.map_cons, if_neg hp, dictGet?, if_neg hp', ih]
  have happ : ∀ e : Registry, dictGet? (e ++ [(k, v)]) k' = dictGet? e k' := by
    intro e
    induction e with
    | nil => simp [dictGet?, hne.symm]
    | cons p e ih => by_cases hp' : p.1 = k' <;> simp [dictGet?, hp', ih]
  unfold dictInsert
  by_cases h : dictMem d k <;> simp [h, hmap, happ]

theorem nodup_keys_dictInsert (d : Registry) (k : String) (v : FunctionRecord)
    (h : (keys d).Nodup) : (keys (dictInsert d k v)).Nodup := by
  rw [keys_dictInsert]
  by_cases hm : dictMem d k
  · simpa [hm] using h
  · have hk : k ∉ keys d := by
      intro hc
      exact absurd ((dictMem_iff_mem_keys d k).mpr hc) (by simpa using hm)
    simp only [hm, Bool.false_eq_true, if_false]
    exact List.Nodup.append h (List.nodup_singleton k)
      (fun a ha hb => hk ((List.mem_singleton.mp hb) ▸ ha))

end DictLemmas

mutual

/-- Totality and invariant preservation of the visitor: from a state
satisfying `Inv`, visiting any node succeeds (no `KeyError`), preserves
`Inv`, never loses a registry key, and registers every plain function
definition contained in the node. -/
theorem visit_total (fp : String) (n : Node) (s : AnalyzerState) (hs : Inv s) :
    ∃ s', visit fp s n = some s' ∧ Inv s' ∧
      (∀ k, dictMem s.functions k = true → dictMem s'.functions k = true) ∧
      (∀ nm, containsDefn nm n = true → dictMem s'.functions nm = true) := by
  cases n with
  | defn name lineno ch =>
    have hs1 : Inv ⟨dictInsert s.functions name ⟨name, basename fp, lineno, []⟩,
        some name⟩ := by
      intro f hf
      simp only [Option.some.injEq] at hf
      subst hf
      exact dictMem_dictInsert_self _ _ _
    obtain ⟨s2, h2, hInv2, hmono2, hdef2⟩ := visitList_total fp ch _ hs1
    refine ⟨{ s2 with current_function := none }, ?_, ?_, ?_, ?_⟩
    · simp only [visit, h2, Option.bind_eq_bind, Option.some_bind]
      rfl
    · intro f hf; simp at hf
    · intro k hk
      exact hmono2 k (dictMem_dictInsert_mono _ _ _ _ hk)
    · intro nm hnm
      unfold containsDefn at hnm
      rw [Bool.or_eq_true] at hnm
      rcases hnm with h | h
      · have : name = nm := of_decide_eq_true h
        subst this
        exact hmono2 name (dictMem_dictInsert_self _ _ _)
      · exact hdef2 nm h
  | asyncDefn name lineno ch =>
    obtain ⟨s2, h2, hInv2, hmono2, hdef2⟩ := visitList_total fp ch s hs
    exact ⟨s2, by simpa [visit] using h2, hInv2, hmono2, fun nm h => hdef2 nm h⟩
  | call target ch =>
    by_cases hia : isActive s.current_function = true
    · cases hcf : s.current_function with
      | none => rw [hcf] at hia; simp [isActive] at hia
      | some f =>
        cases hct : getCallName target with
        | none =>
          obtain ⟨s2, h2, hInv2, hmono2, hdef2⟩ := visitList_total fp ch s hs
          refine ⟨s2, ?_, hInv2, hmono2, fun nm h => hdef2 nm h⟩
          rw [hcf] at hia
          simp only [visit, hcf, hct, hia, if_true, Option.bind_eq_bind,
            Option.some_bind]
          exact h2
        | some c =>
          have hmem : dictMem s.functions f = true := hs f hcf
          have happ := appendCall_eq_some s.functions f c hmem
          have hkeys := keys_appendCall s.functions f c _ happ
          have hs1 : Inv { s with functions := s.functions.map (fun p =>
              if p.1 = f then (p.1, { p.2 with calls := p.2.calls ++ [c] }) else p) } := by
            intro g hg
            simp only at hg
            rw [hcf] at hg
            cases hg
            rw [dictMem_iff_mem_keys, hkeys, ← dictMem_iff_mem_keys]
            exact hmem
          obtain ⟨s2, h2, hInv2, hmono2, hdef2⟩ := visitList_total fp ch _ hs1
          refine ⟨s2, ?_, hInv2, ?_, fun nm h => hdef2 nm h⟩
          · rw [hcf] at hia
            rw [hcf] at h2
            simp only [visit, hcf, hct, hia, if_true, happ, Option.bind_eq_bind,
              Option.some_bind]
            exact h2
          · intro k hk
            refine hmono2 k ?_
            simp only
            rw [dictMem_iff_mem_keys, hkeys, ← dictMem_iff_mem_keys]
            exact hk
    · obtain ⟨s2, h2, hInv2, hmono2, hdef2⟩ := visitList_total fp ch s hs
      refine ⟨s2, ?_, hInv2, hmono2, fun nm h => hdef2 nm h⟩
      rw [Bool.not_eq_true] at hia
      simp only [visit, hia, Bool.false_eq_true, if_false, Option.bind_eq_bind,
        Option.some_bind]
      exact h2
  | other ch =>
    obtain ⟨s2, h2, hInv2, hmono2, hdef2⟩ := visitList_total fp ch s hs
    exact ⟨s2, by simpa [visit] using h2, hInv2, hmono2, fun nm h => hdef2 nm h⟩

/-- `visit_total` lifted to node lists (`generic_visit`). -/
theorem visitList_total (fp : String) (ns : List Node) (s : AnalyzerState) (hs : Inv s) :
    ∃ s', visitList fp s ns = some s' ∧ Inv s' ∧
      (∀ k, dictMem s.functions k = true → dictMem s'.functions k = true) ∧
      (∀ nm, containsDefnList nm ns = true → dictMem s'.functions nm = true) := by
  cases ns with
  | nil =>
    exact ⟨s, rfl, hs, fun _ h => h, fun nm h => by simp [containsDefnList] at h⟩
  | cons n ns =>
    obtain ⟨s1, h1, hInv1, hmono1, hdef1⟩ := visit_total fp n s hs
    obtain ⟨s2, h2, hInv2, hmono2, hdef2⟩ := visitList_total fp ns s1 hInv1
    refine ⟨s2, ?_, hInv2, fun k hk => hmono2 k (hmono1 k hk), ?_⟩
    · simp only [visitList, h1, Option.bind_eq_bind, Option.some_bind]
      exact h2
    · intro nm hnm
      unfold containsDefnList at hnm
      rw [Bool.or_eq_true] at hnm
      rcases hnm with h | h
      · exact hmono2 nm (hdef1 nm h)
      · exact hdef2 nm h

end

mutual

/-- Any property of the registry preserved by the two mutation primitives
(`dictInsert` in `visit_FunctionDef` and the calls-append in `visit_Call`)
is preserved by the whole traversal. -/
theorem visit_preserves (P : Registry → Prop)
    (hIns : ∀ d k v, P d → P (dictInsert d k v))
    (hApp : ∀ d k c d', appendCall d k c = some d' → P d → P d')
    (fp : String) (n : Node) :
    ∀ s s' : AnalyzerState, visit fp s n = some s' → P s.functions → P s'.functions := by
  cases n with
  | defn name lineno ch =>
    intro s s' h hP
    simp only [visit, Option.bind_eq_bind, Option.bind_eq_some] at h
    obtain ⟨s2, h2, hpure⟩ := h
    have h2' := visitList_preserves P hIns hApp fp ch _ s2 h2 (hIns _ _ _ hP)
    cases hpure
    exact h2'
  | asyncDefn name lineno ch =>
    intro s s' h hP
    exact visitList_preserves P hIns hApp fp ch s s' (by simpa [visit] using h) hP
  | call target ch =>
    intro s s' h hP
    by_cases hia : isActive s.current_function = true
    · cases hcf : s.current_function with
      | none => rw [hcf] at hia; simp [isActive] at hia
      | some f =>
        cases hct : getCallName target with
        | none =>
          rw [hcf] at hia
          simp only [visit, hcf, hct, hia, if_true, Option.bind_eq_bind,
            Option.some_bind] at h
          exact visitList_preserves P hIns hApp fp ch s s' h hP
        | some c =>
          rw [hcf] at hia
          cases happ2 : appendCall s.functions f c with
          | none =>
            simp only [visit, hcf, hct, hia, if_true, happ2, Option.bind_eq_bind,
              Option.none_bind] at h
            exact Option.noConfusion h
          | some fs =>
            simp only [visit, hcf, hct, hia, if_true, happ2, Option.bind_eq_bind,
              Option.some_bind, Option.pure_def] at h
            exact visitList_preserves P hIns hApp fp ch _ s' h
              (hApp _ _ _ _ happ2 hP)
    · rw [Bool.not_eq_true] at hia
      simp only [visit, hia, Bool.false_eq_true, if_false, Option.bind_eq_bind,
        Option.some_bind] at h
      exact visitList_preserves P hIns hApp fp ch s s' h hP
  | other ch =>
    intro s s' h hP
    exact visitList_preserves P hIns hApp fp ch s s' (by simpa [visit] using h) hP

/-- `visit_preserves` lifted to node lists. -/
theorem visitList_preserves (P : Registry → Prop)
    (hIns : ∀ d k v, P d → P (dictInsert d k v))
    (hApp : ∀ d k c d', appendCall d k c = some d' → P d → P d')
    (fp : String) (ns : List Node) :
    ∀ s s' : AnalyzerState, visitList fp s ns = some s' → P s.functions → P s'.functions := by
  cases ns with
  | nil =>
    intro s s' h hP
    cases h
    exact hP
  | cons n ns =>
    intro s s' h hP
    simp only [visitList, Option.bind_eq_bind, Option.bind_eq_some] at h
    obtain ⟨s1, h1, h2⟩ := h
    exact visitList_preserves P hIns hApp fp ns s1 s' h2
      (visit_preserves P hIns hApp fp n s s1 h1 hP)

end

theorem Inv_initState : Inv initState := by
  intro g hg
  simp [initState] at hg

theorem nodup_keys_appendCall (d : Registry) (k c : String) (d' : Registry)
    (h : appendCall d k c = some d') (hd : (keys d).Nodup) : (keys d').Nodup := by
  rw [keys_appendCall d k c d' h]
  exact hd

theorem nodup_keys_analyze_file (f : PyFile) : (keys (analyze_file f)).Nodup := by
  cases ht : f.tree? with
  | none => simp [analyze_file, ht, keys]
  | some tree =>
    cases hv : visitList f.path initState tree with
    | none => simp [analyze_file, ht, hv, keys]
    | some s =>
      have := visitList_preserves (fun d => (keys d).Nodup)
        nodup_keys_dictInsert nodup_keys_appendCall f.path tree initState s hv
        (by simp [initState, keys])
      simpa [analyze_file, ht, hv] using this

theorem dictUpdate_nil (d1 : Registry) : dictUpdate d1 [] = d1 := rfl

theorem dictUpdate_cons (d1 : Registry) (p : String × FunctionRecord)
    (d2 : Registry) : dictUpdate d1 (p :: d2) = dictUpdate (dictInsert d1 p.1 p.2) d2 := rfl

theorem nodup_keys_dictUpdate (d1 d2 : Registry) (h : (keys d1).Nodup) :
    (keys (dictUpdate d1 d2)).Nodup := by
  induction d2 generalizing d1 with
  | nil => exact h
  | cons p d2 ih =>
    rw [dictUpdate_cons]
    exact ih _ (nodup_keys_dictInsert _ _ _ h)

theorem dictGet?_dictUpdate_not_mem (d1 d2 : Registry) (k : String)
    (h : dictMem d2 k = false) : dictGet? (dictUpdate d1 d2) k = dictGet? d1 k := by
  induction d2 generalizing d1 with
  | nil => rfl
  | cons p d2 ih =>
    have h' : (decide (p.1 = k) || dictMem d2 k) = false := h
    have hp : ¬ (p.1 = k) := by
      intro hc
      rw [decide_eq_true hc] at h'
      simp at h'
    have h2 : dictMem d2 k = false := by
      cases hb : dictMem d2 k
      · rfl
      · rw [hb] at h'; simp at h'
    rw [dictUpdate_cons, ih _ h2]
    exact dictGet?_dictInsert_ne d1 p.1 p.2 k (fun hc => hp hc.symm)

theorem dictGet?_dictUpdate_of_mem (d1 d2 : Registry) (k : String)
    (hnd : (keys d2).Nodup) (h : dictMem d2 k = true) :
    dictGet? (dictUpdate d1 d2) k = dictGet? d2 k := by
  induction d2 generalizing d1 with
  | nil => simp [dictMem] at h
  | cons p d2 ih =>
    by_cases hp : p.1 = k
    · have hk2 : dictMem d2 k = false := by
        rw [← Bool.not_eq_true, dictMem_iff_mem_keys]
        rw [keys, List.map_cons, List.nodup_cons] at hnd
        rw [← hp]
        exact fun hc => hnd.1 hc
      rw [dictUpdate_cons, dictGet?_dictUpdate_not_mem _ _ _ hk2]
      rw [← hp, dictGet?_dictInsert_self]
      simp [dictGet?, hp]
    · have h' : (decide (p.1 = k) || dictMem d2 k) = true := h
      have h2 : dictMem d2 k = true := by
        rw [decide_eq_false hp] at h'
        simpa using h'
      have hnd2 : (keys d2).Nodup := by
        rw [keys, List.map_cons, List.nodup_cons] at hnd
        exact hnd.2
      rw [dictUpdate_cons, ih (dictInsert d1 p.1 p.2) hnd2 h2]
      simp [dictGet?, hp]

theorem length_buildRelationships (d : Registry) :
    (buildRelationships d).length = (d.map (fun p => p.2.calls.length)).sum := by
  induction d with
  | nil => rfl
  | cons p d ih => simp [buildRelationships, ih]

theorem mem_buildRelationships (d : Registry) (r : CallRelationship)
    (h : r ∈ buildRelationships d) :
    ∃ p ∈ d, r.caller = p.1 ∧ r.caller_file = p.2.file ∧ r.callee ∈ p.2.calls := by
  induction d with
  | nil => simp [buildRelationships] at h
  | cons p d ih =>
    simp only [buildRelationships, List.mem_append] at h
    rcases h with h | h
    · obtain ⟨c, hc, rfl⟩ := List.mem_map.mp h
      exact ⟨p, List.mem_cons_self p d, rfl, rfl, hc⟩
    · obtain ⟨q, hq, hr⟩ := ih h
      exact ⟨q, List.mem_cons_of_mem _ hq, hr⟩

/-- Characterization of a successful `analyze_file`: on a parsed file the
traversal succeeds from the initial state, the result is its final
registry, and every contained plain definition is registered. -/
theorem analyze_file_eq (f : PyFile) (tree : List Node) (ht : f.tree? = some tree) :
    ∃ s', visitList f.path initState tree = some s' ∧ analyze_file f = s'.functions ∧
      Inv s' ∧ (∀ nm, containsDefnList nm tree = true → dictMem (analyze_file f) nm = true) := by
  obtain ⟨s', hv, hInv, _, hdef⟩ := visitList_total f.path tree initState Inv_initState
  have hres : analyze_file f = s'.functions := by
    simp [analyze_file, ht, hv]
  exact ⟨s', hv, hres, hInv, fun nm hnm => by rw [hres]; exact hdef nm hnm⟩

theorem nodup_keys_generate_call_graph (url : String) (files : List PyFile) :
    (keys (generate_call_graph url files).functions).Nodup := by
  have hfold : ∀ (fs : List PyFile) (acc : Registry), (keys acc).Nodup →
      (keys (fs.foldl (fun acc f => dictUpdate acc (analyze_file f)) acc)).Nodup := by
    intro fs
    induction fs with
    | nil => exact fun acc h => h
    | cons f fs ih =>
      intro acc h
      simp only [List.foldl_cons]
      exact ih _ (nodup_keys_dictUpdate _ _ h)
  simpa [generate_call_graph] using hfold files [] (by simp [keys])

/-! ## The claims -/

/-- C1: on exiting any function-definition node the active function is reset
to absent (never to the enclosing function); hence for `outer` containing,
in order, a call to `x()`, a nested definition `inner` whose body calls
`y()`, and then a call to `z()`: `outer`'s calls list is exactly `["x"]`,
`inner`'s is exactly `["y"]`, and the call to `z` — like any call with no
active function, e.g. a module-level call — is silently dropped,
contributing to no calls list and no relationship. -/
theorem C1_reset_to_absent_and_drop :
    (∀ (fp : String) (s : AnalyzerState) (name : String) (lineno : Nat)
      (ch : List Node) (s' : AnalyzerState),
      visit fp s (.defn name lineno ch) = some s' → s'.current_function = none)
    ∧ analyze_file ⟨"a.py", some
        [.defn "outer" 1
          [.call (.name "x") [.other []],
           .defn "inner" 3 [.call (.name "y") [.other []]],
           .call (.name "z") [.other []]]]⟩ =
      [("outer", ⟨"outer", "a.py", 1, ["x"]⟩),
       ("inner", ⟨"inner", "a.py", 3, ["y"]⟩)]
    ∧ buildRelationships
        [("outer", ⟨"outer", "a.py", 1, ["x"]⟩),
         ("inner", ⟨"inner", "a.py", 3, ["y"]⟩)] =
      [⟨"outer", "x", "a.py"⟩, ⟨"inner", "y", "a.py"⟩]
    ∧ analyze_file ⟨"m.py", some [.call (.name "q") [.other []]]⟩ = [] := by
  refine ⟨?_, by decide, by decide, by decide⟩
  intro fp s name lineno ch s' h
  simp only [visit, Option.bind_eq_bind, Option.bind_eq_some] at h
  obtain ⟨s2, _, hpure⟩ := h
  simp only [Option.pure_def, Option.some.injEq] at hpure
  rw [← hpure]

/-- Witness for C1: the reset-to-absent conclusion at a concrete input. -/
theorem C1_reset_to_absent_and_drop_witness :
    AnalyzerState.current_function ⟨[("f", ⟨"f", "a.py", 1, []⟩)], none⟩ = none :=
  C1_reset_to_absent_and_drop.1 "a.py" initState "f" 1 [] _ (by decide)

/-- C2: a later-visited definition of an already-seen name fully replaces
the earlier record (all fields, the accumulated calls list included) —
within one file via dict assignment, across files via `dict.update` — the
merged registry keeps exactly one record per name, and `later` is locator
file order and, within a file, depth-first pre-order. -/
theorem C2_collision_last_write_wins :
    (∀ (d : Registry) (k : String) (v : FunctionRecord),
      dictGet? (dictInsert d k v) k = some v)
    ∧ (∀ (old new : Registry) (k : String), (keys new).Nodup →
        dictMem new k = true → dictGet? (dictUpdate old new) k = dictGet? new k)
    ∧ (∀ (url : String) (files : List PyFile),
        (keys (generate_call_graph url files).functions).Nodup)
    ∧ analyze_file ⟨"m.py", some
        [.defn "f" 1 [.call (.name "a") []],
         .defn "f" 5 [.call (.name "b") []]]⟩ =
      [("f", ⟨"f", "m.py", 5, ["b"]⟩)]
    ∧ generate_call_graph "url"
        [⟨"a.py", some [.defn "foo" 1 [.call (.name "bar") []]]⟩,
         ⟨"b.py", some [.defn "bar" 1 [], .defn "foo" 3 []]⟩] =
      ⟨"url", 2,
        [("foo", ⟨"foo", "b.py", 3, []⟩), ("bar", ⟨"bar", "b.py", 1, []⟩)],
        []⟩ :=
  ⟨dictGet?_dictInsert_self,
   fun old new k h1 h2 => dictGet?_dictUpdate_of_mem old new k h1 h2,
   nodup_keys_generate_call_graph, by decide, by decide⟩

/-- Witness for C2: the across-files replacement conjunct at concrete
registries. -/
theorem C2_collision_last_write_wins_witness :
    dictGet? (dictUpdate [("g", ⟨"g", "a.py", 1, ["x"]⟩)]
        [("g", ⟨"g", "b.py", 2, []⟩)]) "g" =
      dictGet? [("g", ⟨"g", "b.py", 2, []⟩)] "g" :=
  C2_collision_last_write_wins.2.1 [("g", ⟨"g", "a.py", 1, ["x"]⟩)]
    [("g", ⟨"g", "b.py", 2, []⟩)] "g" (by decide) (by decide)

/-- C3: with a function active, a bare-name call target `f(...)` appends
`f`, an attribute target `obj.method(...)` appends only `method` (receiver
discarded), any other target shape appends nothing; appends happen in
depth-first encounter order, so a body calling `b()` then `c.d()` yields
`calls = ["b", "d"]`. -/
theorem C3_callee_name_extraction :
    (∀ id, getCallName (.name id) = some id)
    ∧ (∀ attr, getCallName (.attribute attr) = some attr)
    ∧ getCallName .other = none
    ∧ (∀ (fp : String) (s : AnalyzerState) (f g : String),
        s.current_function = some f → f ≠ "" → dictMem s.functions f = true →
        visit fp s (.call (.name g) []) = some { s with
          functions := s.functions.map (fun p =>
            if p.1 = f then (p.1, { p.2 with calls := p.2.calls ++ [g] }) else p) })
    ∧ (∀ (fp : String) (s : AnalyzerState) (f m : String),
        s.current_function = some f → f ≠ "" → dictMem s.functions f = true →
        visit fp s (.call (.attribute m) []) = some { s with
          functions := s.functions.map (fun p =>
            if p.1 = f then (p.1, { p.2 with calls := p.2.calls ++ [m] }) else p) })
    ∧ (∀ (fp : String) (s : AnalyzerState) (target : CallTarget),
        getCallName target = none → visit fp s (.call target []) = some s)
    ∧ analyze_file ⟨"a.py", some
        [.defn "a" 1
          [.call (.name "b") [.other []],
           .call (.attribute "d") [.other [], .other []]]]⟩ =
      [("a", ⟨"a", "a.py", 1, ["b", "d"]⟩)] := by
  refine ⟨fun _ => rfl, fun _ => rfl, rfl, ?_, ?_, ?_, by decide⟩
  · intro fp s f g hcf hf hmem
    have hia : isActive (some f) = true := by simp [isActive, hf]
    simp only [visit, hcf, hia, if_true, getCallName,
      appendCall_eq_some s.functions f g hmem, Option.bind_eq_bind,
      Option.some_bind, visitList, Option.pure_def]
  · intro fp s f m hcf hf hmem
    have hia : isActive (some f) = true := by simp [isActive, hf]
    simp only [visit, hcf, hia, if_true, getCallName,
      appendCall_eq_some s.functions f m hmem, Option.bind_eq_bind,
      Option.some_bind, visitList, Option.pure_def]
  · intro fp s target hct
    by_cases hia : isActive s.current_function = true
    · cases hcf : s.current_function with
      | none => rw [hcf] at hia; simp [isActive] at hia
      | some f =>
        rw [hcf] at hia
        simp only [visit, hcf, hct, hia, if_true, Option.bind_eq_bind,
          Option.some_bind, visitList, Option.pure_def]
    · rw [Bool.not_eq_true] at hia
      simp only [visit, hia, Bool.false_eq_true, if_false, Option.bind_eq_bind,
        Option.some_bind, visitList, Option.pure_def]

/-- Witness for C3: the bare-name conjunct at a concrete state. -/
theorem C3_callee_name_extraction_witness :
    visit "a.py" ⟨[("f", ⟨"f", "a.py", 1, []⟩)], some "f"⟩ (.call (.name "g") []) =
      some { functions := [("f", ⟨"f", "a.py", 1, ["g"]⟩)].map (fun p =>
          if p.1 = "f" then (p.1, p.2) else p), current_function := some "f" } := by
  have h := (C3_callee_name_extraction.2.2.2.1) "a.py"
    ⟨[("f", ⟨"f", "a.py", 1, []⟩)], some "f"⟩ "f" "g" rfl (by decide) (by decide)
  rw [h]
  decide

/-- C4 counterexample: an `async def` is a function definition
(`ast.AsyncFunctionDef`), but the visitor has no handler for it, so no
FunctionRecord is produced for it — against the claim's `regardless of
definition kind`. -/
theorem C4_counterexample_async :
    dictGet? (analyze_file ⟨"a.py", some
      [.asyncDefn "f" 1 [.call (.name "g") []]]⟩) "f" = none
    ∧ analyze_file ⟨"a.py", some [.asyncDefn "f" 1 [.call (.name "g") []]]⟩
      = [] := by decide

/-- C4 (amended): for every plain `def` (`ast.FunctionDef`) definition
occurring anywhere in a successfully parsed file's tree — module level,
nested in a function, inside a class, even inside an `async def` —
extraction registers a record under its declared (unqualified) name, with
the file's base name and the definition's line; `async def` definitions
themselves produce no record. -/
theorem C4_amended_def_recorded :
    (∀ (f : PyFile) (tree : List Node), f.tree? = some tree →
      ∀ nm, containsDefnList nm tree = true → dictMem (analyze_file f) nm = true)
    ∧ analyze_file ⟨"pkg/mod.py", some
        [.defn "top" 1 [],
         .other [.defn "meth" 5 []],
         .defn "outer" 9 [.defn "nested" 10 []],
         .asyncDefn "amain" 12 [.defn "inAsync" 13 []]]⟩ =
      [("top", ⟨"top", "mod.py", 1, []⟩),
       ("meth", ⟨"meth", "mod.py", 5, []⟩),
       ("outer", ⟨"outer", "mod.py", 9, []⟩),
       ("nested", ⟨"nested", "mod.py", 10, []⟩),
       ("inAsync", ⟨"inAsync", "mod.py", 13, []⟩)] := by
  refine ⟨?_, by decide⟩
  intro f tree ht nm hnm
  obtain ⟨s', _, _, _, hdef⟩ := analyze_file_eq f tree ht
  exact hdef nm hnm

/-- Witness for C4 (amended): the registration conjunct at a concrete file. -/
theorem C4_amended_def_recorded_witness :
    dictMem (analyze_file ⟨"a.py", some [.defn "g" 1 []]⟩) "g" = true :=
  C4_amended_def_recorded.1 ⟨"a.py", some [.defn "g" 1 []]⟩
    [.defn "g" 1 []] rfl "g" (by decide)

/-- C5: in every assembled report, `total_functions` is the number of
registry entries, the relationship count is the sum of the calls-list
lengths, and every relationship's caller is a registry key whose record
supplies its `caller_file` and contains its callee in its calls list. -/
theorem C5_report_shape_invariants (url : String) (files : List PyFile) :
    (generate_call_graph url files).total_functions
        = (generate_call_graph url files).functions.length
    ∧ (generate_call_graph url files).call_relationships.length
        = ((generate_call_graph url files).functions.map
            (fun p => p.2.calls.length)).sum
    ∧ ((generate_call_graph url files).call_relationships.all (fun r =>
        (generate_call_graph url files).functions.any (fun p =>
          decide (r.caller = p.1) && decide (r.caller_file = p.2.file)
            && decide (r.callee ∈ p.2.calls)))) = true := by
  refine ⟨rfl, length_buildRelationships _, ?_⟩
  rw [List.all_eq_true]
  intro r hr
  obtain ⟨p, hp, h1, h2, h3⟩ := mem_buildRelationships _ r hr
  rw [List.any_eq_true]
  exact ⟨p, hp, by simp [h1, h2, h3]⟩

/-- C6: a file whose text does not parse contributes the empty mapping, and
the overall run is exactly the run on the remaining files — a single file's
failure never escalates past that file. -/
theorem C6_parse_failure_isolated :
    (∀ p : String, analyze_file ⟨p, none⟩ = [])
    ∧ (∀ (url : String) (fs1 fs2 : List PyFile) (p : String),
        generate_call_graph url (fs1 ++ ⟨p, none⟩ :: fs2)
          = generate_call_graph url (fs1 ++ fs2)) := by
  refine ⟨fun p => rfl, ?_⟩
  intro url fs1 fs2 p
  unfold generate_call_graph
  simp only [List.foldl_append, List.foldl_cons]
  rfl

/-- C7: extraction and assembly are deterministic — the report is a pure
function of the repository identifier and the ordered file sequence, so two
runs on the same inputs produce identical reports (registry keys, values
and order, and the relationship sequence included). -/
theorem C7_deterministic (url1 url2 : String) (files1 files2 : List PyFile)
    (hu : url1 = url2) (hf : files1 = files2) :
    generate_call_graph url1 files1 = generate_call_graph url2 files2 := by
  rw [hu, hf]

/-- Witness for C7 at a concrete repeated input. -/
theorem C7_deterministic_witness :
    generate_call_graph "u" [⟨"a.py", some [.defn "f" 1 []]⟩] =
      generate_call_graph "u" [⟨"a.py", some [.defn "f" 1 []]⟩] :=
  C7_deterministic "u" "u" [⟨"a.py", some [.defn "f" 1 []]⟩]
    [⟨"a.py", some [.defn "f" 1 []]⟩] rfl rfl

/-- C8: whenever the visitor runs with an active function, that function is
a key of the registry (`Inv`); the invariant holds initially and is
preserved by every visit, and under it no visit ever raises — in particular
the calls-append in `visit_Call` never misses its key (`InvO` rules out the
`none` outcome that models the `KeyError`). -/
theorem C8_active_function_is_registered :
    Inv initState
    ∧ (∀ (fp : String) (n : Node) (s : AnalyzerState), Inv s → InvO (visit fp s n))
    ∧ (∀ (fp : String) (tree : List Node), InvO (visitList fp initState tree)) := by
  refine ⟨Inv_initState, ?_, ?_⟩
  · intro fp n s hs
    obtain ⟨s', h, hInv, _, _⟩ := visit_total fp n s hs
    rw [h]
    exact hInv
  · intro fp tree
    obtain ⟨s', h, hInv, _, _⟩ := visitList_total fp tree initState Inv_initState
    rw [h]
    exact hInv

/-- Witness for C8 at a concrete state and node. -/
theorem C8_active_function_is_registered_witness :
    InvO (visit "a.py" initState (.defn "f" 1 [.call (.name "g") []])) :=
  C8_active_function_is_registered.2.1 "a.py"
    (.defn "f" 1 [.call (.name "g") []]) initState
    (by intro f hf; simp [initState] at hf)

/-- C9: calls in a definition's decorator list or default-argument
expressions are attributed to that function: for `f` decorated with
`deco(arg)` and with default value `g()` in its parameter list (body
calling `h()`), `deco` and `g` are appended to `f`'s calls list, because
the active function is set before the whole definition node (arguments,
body, decorators) is traversed. -/
theorem C9_decorator_and_default_calls_attributed :
    analyze_file ⟨"mod.py", some
      [.defn "f" 2
        [.other [.call (.name "g") []],
         .other [.call (.name "h") []],
         .call (.name "deco") [.other []]]]⟩ =
      [("f", ⟨"f", "mod.py", 2, ["g", "h", "deco"]⟩)] := by decide

/-- C10: an overwritten name keeps the registry position of its first
occurrence (dict assignment replaces in place) while taking the later
record's value, so its relationships appear at the first-seen position of
the flattened sequence, not at the overwriting definition's position. -/
theorem C10_collision_keeps_first_position :
    (∀ (d : Registry) (k : String) (v : FunctionRecord),
      keys (dictInsert d k v) = if dictMem d k then keys d else keys d ++ [k])
    ∧ generate_call_graph "url"
        [⟨"f1.py", some [.defn "a" 1 [.call (.name "p") []],
                         .defn "b" 3 [.call (.name "q") []]]⟩,
         ⟨"f2.py", some [.defn "a" 1 [.call (.name "r") []]]⟩] =
      ⟨"url", 2,
        [("a", ⟨"a", "f2.py", 1, ["r"]⟩), ("b", ⟨"b", "f1.py", 3, ["q"]⟩)],
        [⟨"a", "r", "f2.py"⟩, ⟨"b", "q", "f1.py"⟩]⟩ :=
  ⟨keys_dictInsert, by decide⟩

end CallGraph
